import Mathlib

/-!
Verification of the AdBlock4All background engine against its specification.

The definitions below are a shallow embedding of the JavaScript source in
src/V1.8/background.js (and, where noted, the older variant in
src/unnamed/part_002).  Strings are modelled as Lean String / List Char,
JS Map objects as insertion-ordered association lists (a JS Map iterates
in insertion order; re-inserting after delete moves the key to the end,
while Map.set on a present key updates in place), and the asynchronous
storage callbacks as explicit interleaved steps.
-/

set_option maxRecDepth 4000

/-! ### Generic association-list operations, modelling JS Map semantics -/

/-- Model of JS Map.get: first binding of the key, if any. -/
def assocGet {κ α : Type} [DecidableEq κ] : List (κ × α) → κ → Option α
  | [], _ => none
  | (k2, v) :: rest, k => if k2 = k then some v else assocGet rest k

/-- Model of JS Map.set: update the existing binding in place (keeping its
position in iteration order), or append a fresh binding at the end. -/
def assocSet {κ α : Type} [DecidableEq κ] : List (κ × α) → κ → α → List (κ × α)
  | [], k, v => [(k, v)]
  | (k2, v2) :: rest, k, v =>
      if k2 = k then (k, v) :: rest else (k2, v2) :: assocSet rest k v

/-- Model of JS Map.delete: remove the binding of the key. -/
def assocDelete {κ α : Type} [DecidableEq κ] (m : List (κ × α)) (k : κ) : List (κ × α) :=
  m.filter (fun e => decide (e.1 ≠ k))

/-! ### JS string helpers used by the background script -/

/-- Model of JS String.prototype.toLowerCase restricted to the ASCII range
(the filter rules and URLs the engine handles are ASCII). -/
def jsToLower (c : Char) : Char :=
  if 65 ≤ c.toNat ∧ c.toNat ≤ 90 then Char.ofNat (c.toNat + 32) else c

/-- Lowercased character data of a string, as done by url.toLowerCase(). -/
def lowerData (s : String) : List Char :=
  s.data.map jsToLower

/-- Whitespace test for the model of JS String.prototype.trim. -/
def isJsSpace (c : Char) : Bool :=
  c = ' ' || c = '\t' || c = '\n' || c = '\r'

/-- Model of JS String.prototype.trim on character data. -/
def trimChars (l : List Char) : List Char :=
  ((l.dropWhile isJsSpace).reverse.dropWhile isJsSpace).reverse

/-- Model of JS String.prototype.trim. -/
def jsTrim (s : String) : String :=
  String.mk (trimChars s.data)

/-- Does q occur at the start of s (s.take q.length = q)? -/
def beg (q s : List Char) : Prop :=
  s.take q.length = q

instance (q s : List Char) : Decidable (beg q s) :=
  inferInstanceAs (Decidable (s.take q.length = q))

/-- Boolean version of beg, used for JS String.prototype.startsWith. -/
def begB (q s : List Char) : Bool :=
  decide (beg q s)

/-- Model of JS String.prototype.includes: q occurs somewhere inside s. -/
def hasSub (q : List Char) : List Char → Bool
  | [] => q.isEmpty
  | c :: rest => begB q (c :: rest) || hasSub q rest

/-! ### FilterTrie (src/V1.8/background.js lines 6-72) -/

/-- TrieNode: children map, terminal flag, optional category tag
(children/isPattern/category fields of the JS TrieNode class). -/
inductive TrieNode : Type where
  | mk (children : List (Char × TrieNode)) (isPattern : Bool) (category : Option String)

/-- Children map of a trie node. -/
def TrieNode.children : TrieNode → List (Char × TrieNode)
  | .mk cs _ _ => cs

/-- Terminal flag of a trie node. -/
def TrieNode.isPat : TrieNode → Bool
  | .mk _ b _ => b

/-- Category tag of a trie node. -/
def TrieNode.cat : TrieNode → Option String
  | .mk _ _ c => c

/-- A freshly constructed TrieNode. -/
def emptyNode : TrieNode :=
  .mk [] false none

/-- Result object returned by FilterTrie.matches / searchFrom. -/
structure MatchResult where
  matched : Bool
  category : Option String
deriving DecidableEq

/-- Model of FilterTrie cleanPattern, step 1: strip one leading "||". -/
def dropLeadBar2 (l : List Char) : List Char :=
  if l.take 2 = ['|', '|'] then l.drop 2 else l

/-- Model of FilterTrie cleanPattern, step 2: strip one leading "|". -/
def dropLeadBar (l : List Char) : List Char :=
  if l.take 1 = ['|'] then l.drop 1 else l

/-- Model of FilterTrie cleanPattern, step 3: strip one trailing "|". -/
def dropTrailBar (l : List Char) : List Char :=
  if l.getLast? = some '|' then l.dropLast else l

/-- Model of FilterTrie cleanPattern, step 4: remove every asterisk. -/
def removeStars (l : List Char) : List Char :=
  l.filter (fun c => decide (c ≠ '*'))

/-- Model of FilterTrie cleanPattern, step 5: remove every caret. -/
def removeCarets (l : List Char) : List Char :=
  l.filter (fun c => decide (c ≠ '^'))

/-- FilterTrie cleanPattern on character data: the five regex replaces
followed by toLowerCase, in source order. -/
def cleanChars (l : List Char) : List Char :=
  (removeCarets (removeStars (dropTrailBar (dropLeadBar (dropLeadBar2 l))))).map jsToLower

/-- FilterTrie cleanPattern (the underscore of the JS private name is dropped). -/
def FilterTrie.cleanPattern (p : String) : String :=
  String.mk (cleanChars p.data)

/-- Child of a children map to continue an insert walk from: the existing
child when the character is bound, a fresh node otherwise. -/
def childOf (cs : List (Char × TrieNode)) (c : Char) : TrieNode :=
  match assocGet cs c with
  | some u => u
  | none => emptyNode

/-- Recursive worker for FilterTrie.insert: walk/create one node per character
of the cleaned pattern, then mark the final node terminal with the category. -/
def insertChars : TrieNode → List Char → String → TrieNode
  | .mk cs _ _, [], category => .mk cs true (some category)
  | .mk cs b cat0, c :: rest, category =>
      .mk (assocSet cs c (insertChars (childOf cs c) rest category)) b cat0

/-- FilterTrie.insert: clean the pattern and store it in the trie rooted at t.
The trie object is represented by its root node; patternCount is bookkeeping
with no behavioral role and is not modelled. -/
def FilterTrie.insert (t : TrieNode) (p : String) (category : String) : TrieNode :=
  insertChars t (cleanChars p.data) category

/-- Walk the trie along a character list, returning the node reached. -/
def findNode : TrieNode → List Char → Option TrieNode
  | t, [] => some t
  | t, c :: rest =>
      match assocGet t.children c with
      | none => none
      | some u => findNode u rest

/-- Is there a terminal node at path p? -/
def terminalAt (t : TrieNode) (p : List Char) : Bool :=
  match findNode t p with
  | some u => u.isPat
  | none => false

/-- Category stored at path p, if the path exists. -/
def categoryAt (t : TrieNode) (p : List Char) : Option String :=
  match findNode t p with
  | some u => u.cat
  | none => none

/-- FilterTrie searchFrom: walk from the root consuming url characters from
one starting offset; at each node visited before consuming its outgoing
character, a terminal node returns immediately; the node reached when the url
is exhausted is also checked. -/
def FilterTrie.searchFrom : TrieNode → List Char → Option MatchResult
  | t, [] => if t.isPat then some ⟨true, t.cat⟩ else none
  | t, c :: rest =>
      if t.isPat then some ⟨true, t.cat⟩
      else
        match assocGet t.children c with
        | none => none
        | some u => FilterTrie.searchFrom u rest

/-- Offset loop of FilterTrie.matches: try every starting offset of the
lowercased url left-to-right and return the first result found. -/
def matchesAux (t : TrieNode) : List Char → Option MatchResult
  | [] => none
  | c :: rest =>
      match FilterTrie.searchFrom t (c :: rest) with
      | some r => some r
      | none => matchesAux t rest

/-- FilterTrie.matches: lowercase the url, then scan starting offsets. -/
def FilterTrie.matches (t : TrieNode) (url : String) : Option MatchResult :=
  matchesAux t (lowerData url)

/-- Build a trie by inserting a list of (pattern, category) pairs in order,
as loadFilterList does. -/
def buildTrie (pats : List (String × String)) : TrieNode :=
  pats.foldl (fun t pc => FilterTrie.insert t pc.1 pc.2) emptyNode

/-- Is there some terminal path of t at the start of s?  Bounded boolean
form: a terminal path q with beg q s satisfies q = s.take q.length. -/
def leadsToTerm (t : TrieNode) (s : List Char) : Bool :=
  (List.range (s.length + 1)).any (fun n => terminalAt t (s.take n))

/-! ### Filter-list loader skip checks (src/V1.8/background.js lines 183-194) -/

/-- Does a rule line survive the loader's skip checks: not blank, not a
comment or section header, no element-hiding markers, not an allowlist rule. -/
def lineSurvives (line : String) : Bool :=
  !(jsTrim line == "") && !(begB "!".data line.data) && !(begB "[".data line.data) &&
    !(hasSub "##".data line.data) && !(hasSub "#@#".data line.data) &&
    !(begB "@@".data line.data)

/-- The loader's per-line processing before insert: trim, then cut at the
first dollar sign (filter.split with the dollar separator, index 0). -/
def processedFilter (line : String) : String :=
  let f := trimChars line.data
  if f.contains '$' then String.mk (f.takeWhile (fun c => decide (c ≠ '$'))) else String.mk f

/-! ### LRUCache (src/V1.8/background.js lines 74-101) -/

/-- LRUCache state: the backing Map as an insertion-ordered association list
(head = oldest binding) and the configured capacity. -/
structure LRU (α : Type) where
  cache : List (String × α)
  maxSize : Nat
deriving DecidableEq

/-- A fresh LRUCache of the given capacity. -/
def emptyLRU (α : Type) (maxSize : Nat) : LRU α :=
  ⟨[], maxSize⟩

/-- LRUCache.get: on a hit, delete the binding and re-insert it at the end
(most-recently-used position), returning the value. -/
def LRU.get {α : Type} (c : LRU α) (k : String) : Option α × LRU α :=
  match assocGet c.cache k with
  | none => (none, c)
  | some v => (some v, { c with cache := assocSet (assocDelete c.cache k) k v })

/-- LRUCache.set: when the map has reached capacity, delete the first
(least-recently-used) key, then set the binding. -/
def LRU.set {α : Type} (c : LRU α) (k : String) (v : α) : LRU α :=
  let base :=
    if c.maxSize ≤ c.cache.length then
      match c.cache.head? with
      | some e => assocDelete c.cache e.1
      | none => c.cache
    else c.cache
  { c with cache := assocSet base k v }

/-- LRUCache.has: pure membership check on the backing Map. -/
def LRU.has {α : Type} (c : LRU α) (k : String) : Bool :=
  (assocGet c.cache k).isSome

/-- One cache operation, for stating invariants over operation sequences. -/
inductive CacheOp (α : Type) where
  | get (k : String)
  | set (k : String) (v : α)
  | has (k : String)

/-- Run one cache operation, keeping only the state (has does not touch it;
get discards the returned value). -/
def runOp {α : Type} (c : LRU α) : CacheOp α → LRU α
  | .get k => (LRU.get c k).2
  | .set k v => LRU.set c k v
  | .has _ => c

/-- Run a sequence of cache operations. -/
def runOps {α : Type} (c : LRU α) (ops : List (CacheOp α)) : LRU α :=
  ops.foldl runOp c

/-! ### Per-tab session state (src/V1.8/background.js lines 108-109, 384-412) -/

/-- One recorded blocked-request event, as pushed by the onBeforeRequest
listener (url is the shortened display form). -/
structure BlockedEntry where
  url : String
  fullUrl : String
  timestamp : Nat
  category : String
deriving DecidableEq

/-- Per-tab record stored in blockedUrlsByTab. -/
structure TabData where
  domain : String
  urls : List BlockedEntry
  totalCount : Nat
  adCount : Nat
  trackerCount : Nat
deriving DecidableEq

/-- The record a tab is (re)initialized with, with the given domain. -/
def freshTab (domain : String) : TabData :=
  ⟨domain, [], 0, 0, 0⟩

/-- Cap on the per-tab recent-event list in V1.8. -/
def MAX_STORED_PER_TAB : Nat := 300

/-- Session update performed by the onBeforeRequest listener on a match:
unshift the event only while the list is below the cap K, then always
increment totalCount and the category counter (trackerCount for category
Tracker, adCount otherwise). -/
def recordMatch (K : Nat) (td : TabData) (e : BlockedEntry) : TabData :=
  let td2 := if td.urls.length < K then { td with urls := e :: td.urls } else td
  let td3 := { td2 with totalCount := td2.totalCount + 1 }
  if e.category = "Tracker" then { td3 with trackerCount := td3.trackerCount + 1 }
  else { td3 with adCount := td3.adCount + 1 }

/-! ### Global counters and the tab-navigation handler
(src/V1.8/background.js lines 418-438 and 461-494) -/

/-- Process-wide persisted scalars.  totalTimeSavedCs is totalTimeSaved in
hundredths of a second (the source adds the float 0.12 per ad); the exact
unit is irrelevant to the claims, which only observe these fields unchanged
or incremented. -/
structure Globals where
  totalBlockedAllTime : Nat
  totalTimeSavedCs : Nat
  totalDataSavedKb : Nat
  userXP : Nat
  userCoins : Nat
deriving DecidableEq

/-- Background state: the blockedUrlsByTab map plus the persisted globals. -/
structure BgState where
  tabs : List (Nat × TabData)
  globals : Globals
deriving DecidableEq

/-- The chrome.tabs.onUpdated listener for a url change, with the hostname
already extracted by the URL constructor: replace the tab record with a
fresh one when the hostname differs from the recorded domain, create a fresh
record for unknown tabs, and touch nothing else. -/
def onUrlChange (s : BgState) (tabId : Nat) (hostname : String) : BgState :=
  match assocGet s.tabs tabId with
  | some td =>
      if td.domain ≠ hostname then
        { s with tabs := assocSet s.tabs tabId (freshTab hostname) }
      else s
  | none => { s with tabs := assocSet s.tabs tabId (freshTab hostname) }

/-! ### PersistenceBatcher timers
(src/V1.8/background.js lines 275-284; src/unnamed/part_002 lines 233-244) -/

/-- Storage flush delay shared by both versions of the batcher. -/
def STORAGE_BATCH_DELAY : Nat := 1000

/-- One live setTimeout for the flush callback: its timeout id and the
absolute time at which it fires. -/
structure FlushTimer where
  id : Nat
  fireAt : Nat
deriving DecidableEq

/-- Timer state of the V1.8 batcher: the set of live flush timeouts, the
storageUpdateTimer variable, and a fresh-id counter for setTimeout. -/
structure BatcherV18 where
  live : List FlushTimer
  timerVar : Option Nat
  nextId : Nat
deriving DecidableEq

/-- clearTimeout: the timeout with the given id no longer fires. -/
def clearT (l : List FlushTimer) (i : Nat) : List FlushTimer :=
  l.filter (fun ft => decide (ft.id ≠ i))

/-- scheduleStorageUpdate in V1.8, invoked at absolute time now: clear any
timeout recorded in storageUpdateTimer, then schedule a fresh one for
now + STORAGE_BATCH_DELAY. -/
def scheduleStorageUpdate (s : BatcherV18) (now : Nat) : BatcherV18 :=
  let l :=
    match s.timerVar with
    | some i => clearT s.live i
    | none => s.live
  ⟨l ++ [⟨s.nextId, now + STORAGE_BATCH_DELAY⟩], some s.nextId, s.nextId + 1⟩

/-- Timer state of the part_002 batcher, which also keeps the
pendingStorageUpdates dirty set. -/
structure BatcherOpt where
  live : List FlushTimer
  timerVar : Option Nat
  dirty : List Nat
  nextId : Nat
deriving DecidableEq

/-- scheduleBatchedStorageUpdate in part_002, invoked at absolute time now:
record the dirty tab, and only schedule a timeout when none is pending. -/
def scheduleBatchedStorageUpdate (s : BatcherOpt) (tabId : Nat) (now : Nat) : BatcherOpt :=
  let d := if s.dirty.contains tabId then s.dirty else s.dirty ++ [tabId]
  match s.timerVar with
  | some _ => { s with dirty := d }
  | none =>
      ⟨s.live ++ [⟨s.nextId, now + STORAGE_BATCH_DELAY⟩], some s.nextId, d, s.nextId + 1⟩

/-- Well-formedness of batcher timer state: at most one live flush timeout,
and any live timeout is the one recorded in the timer variable. -/
def tidyTimers (live : List FlushTimer) (timerVar : Option Nat) : Prop :=
  live.length ≤ 1 ∧ ∀ ft ∈ live, timerVar = some ft.id

instance (live : List FlushTimer) (timerVar : Option Nat) : Decidable (tidyTimers live timerVar) :=
  inferInstanceAs (Decidable (_ ∧ _))

/-! ### The global-counter read-then-write race
(src/V1.8/background.js lines 418-438) -/

/-- Progress of one in-flight totalBlockedAllTime update: about to issue the
storage read, holding the read value r and about to write r + 1, or done. -/
inductive IncTask where
  | toRead
  | toWrite (r : Nat)
  | done
deriving DecidableEq

/-- One scheduler step of a counter-update task against the stored total:
the read suspends and resumes with the current total; the write stores
r + 1 (the source computes newTotal = (result.totalBlockedAllTime or 0) + 1
inside the get callback and then issues the set). -/
def stepInc (total : Nat) : IncTask → Nat × IncTask
  | .toRead => (total, .toWrite total)
  | .toWrite r => (r + 1, .done)
  | .done => (total, .done)

/-- Two logically concurrent counter updates interleaved by a schedule. -/
structure RaceState where
  total : Nat
  taskA : IncTask
  taskB : IncTask
deriving DecidableEq

/-- Run one step of the chosen task (true picks task A). -/
def raceStep (s : RaceState) (pickA : Bool) : RaceState :=
  if pickA then
    let p := stepInc s.total s.taskA
    ⟨p.1, p.2, s.taskB⟩
  else
    let p := stepInc s.total s.taskB
    ⟨p.1, s.taskA, p.2⟩

/-- Run a whole schedule. -/
def raceRun (s : RaceState) (sched : List Bool) : RaceState :=
  sched.foldl raceStep s

/-! ### Facts about the lowercasing model -/

theorem toNat_charOfNat_of_lt {n : Nat} (h : n < 55296) : (Char.ofNat n).toNat = n := by
  have hv : n.isValidChar := Or.inl h
  simp [Char.ofNat, hv, Char.ofNatAux, Char.toNat, UInt32.toNat]

theorem jsToLower_toNat_of_upper {c : Char} (h1 : 65 ≤ c.toNat) (h2 : c.toNat ≤ 90) :
    (jsToLower c).toNat = c.toNat + 32 := by
  unfold jsToLower
  rw [if_pos ⟨h1, h2⟩]
  exact toNat_charOfNat_of_lt (by omega)

theorem jsToLower_eq_self_of_not_upper {c : Char} (h : ¬ (65 ≤ c.toNat ∧ c.toNat ≤ 90)) :
    jsToLower c = c := by
  unfold jsToLower
  exact if_neg h

theorem jsToLower_jsToLower (c : Char) : jsToLower (jsToLower c) = jsToLower c := by
  by_cases h : 65 ≤ c.toNat ∧ c.toNat ≤ 90
  · have hn : (jsToLower c).toNat = c.toNat + 32 := jsToLower_toNat_of_upper h.1 h.2
    exact jsToLower_eq_self_of_not_upper (by omega)
  · have h' := jsToLower_eq_self_of_not_upper h
    rw [h']
    exact h'

theorem eq_of_jsToLower_eq {c d : Char} (hd : ¬ (97 ≤ d.toNat ∧ d.toNat ≤ 122))
    (h : jsToLower c = d) : c = d := by
  by_cases hc : 65 ≤ c.toNat ∧ c.toNat ≤ 90
  · exfalso
    have hn := jsToLower_toNat_of_upper hc.1 hc.2
    rw [h] at hn
    exact hd ⟨by omega, by omega⟩
  · rw [jsToLower_eq_self_of_not_upper hc] at h
    exact h

theorem map_jsToLower_idem (l : List Char) :
    (l.map jsToLower).map jsToLower = l.map jsToLower := by
  induction l with
  | nil => rfl
  | cons c rest ih => simp [jsToLower_jsToLower, ih]

/-! ### Claim C6: pattern cleaning -/

theorem mem_cleanChars_ne_star {l : List Char} {a : Char} (h : a ∈ cleanChars l) : a ≠ '*' := by
  unfold cleanChars at h
  obtain ⟨b, hb, hba⟩ := List.mem_map.mp h
  have hb2 := List.mem_filter.mp hb
  have hb3 := List.mem_filter.mp hb2.1
  intro hstar
  subst hstar
  have hb4 : b = '*' := eq_of_jsToLower_eq (by decide) hba
  subst hb4
  simp at hb3

theorem mem_cleanChars_ne_caret {l : List Char} {a : Char} (h : a ∈ cleanChars l) : a ≠ '^' := by
  unfold cleanChars at h
  obtain ⟨b, hb, hba⟩ := List.mem_map.mp h
  have hb2 := List.mem_filter.mp hb
  intro hcaret
  subst hcaret
  have hb4 : b = '^' := eq_of_jsToLower_eq (by decide) hba
  subst hb4
  simp at hb2

theorem dropLeadBar2_eq_of {l : List Char} (h : l.head? ≠ some '|') : dropLeadBar2 l = l := by
  unfold dropLeadBar2
  rw [if_neg]
  intro heq
  cases l with
  | nil => simp at heq
  | cons c rest =>
      apply h
      simp [List.take_succ_cons] at heq
      rw [heq.1]
      rfl

theorem dropLeadBar_eq_of {l : List Char} (h : l.head? ≠ some '|') : dropLeadBar l = l := by
  unfold dropLeadBar
  rw [if_neg]
  intro heq
  cases l with
  | nil => simp at heq
  | cons c rest =>
      apply h
      simp [List.take_succ_cons] at heq
      rw [heq]
      rfl

theorem dropTrailBar_eq_of {l : List Char} (h : l.getLast? ≠ some '|') : dropTrailBar l = l := by
  unfold dropTrailBar
  exact if_neg h

theorem cleanChars_fixed {l : List Char}
    (h1 : (cleanChars l).head? ≠ some '|') (h2 : (cleanChars l).getLast? ≠ some '|') :
    cleanChars (cleanChars l) = cleanChars l := by
  have hstar : removeStars (cleanChars l) = cleanChars l :=
    List.filter_eq_self.mpr (fun a ha => by simpa using mem_cleanChars_ne_star ha)
  have hcaret : removeCarets (cleanChars l) = cleanChars l :=
    List.filter_eq_self.mpr (fun a ha => by simpa using mem_cleanChars_ne_caret ha)
  have hmap : (cleanChars l).map jsToLower = cleanChars l := by
    unfold cleanChars
    exact map_jsToLower_idem _
  generalize hq : cleanChars l = q at h1 h2 hstar hcaret hmap
  unfold cleanChars
  rw [dropLeadBar2_eq_of h1, dropLeadBar_eq_of h1, dropTrailBar_eq_of h2, hstar, hcaret, hmap]

/-- Claim C6 fails as stated: cleaning the raw pattern star-bar-a yields
bar-a (stars are removed only after the leading-bar strip), and cleaning
again strips the now-leading bar, so clean is not idempotent on it. -/
theorem C6_counterexample :
    FilterTrie.cleanPattern (FilterTrie.cleanPattern "*|a") ≠ FilterTrie.cleanPattern "*|a" := by
  decide

/-- Claim C6 (amended): pattern cleaning is deterministic (it is a pure
function of the input), and clean (clean p) = clean p holds whenever the
cleaned string neither starts nor ends with a bar character; the general
idempotence stated by the claim fails (see the counterexample). -/
theorem C6_amended (p : String)
    (h1 : (cleanChars p.data).head? ≠ some '|')
    (h2 : (cleanChars p.data).getLast? ≠ some '|') :
    FilterTrie.cleanPattern (FilterTrie.cleanPattern p) = FilterTrie.cleanPattern p := by
  unfold FilterTrie.cleanPattern
  exact congrArg String.mk (cleanChars_fixed h1 h2)

/-- Witness for C6: the amended idempotence applied to a concrete pattern. -/
theorem C6_witness :
    ((cleanChars "||ads*".data).head? ≠ some '|') ∧
      ((cleanChars "||ads*".data).getLast? ≠ some '|') ∧
      FilterTrie.cleanPattern (FilterTrie.cleanPattern "||ads*") = FilterTrie.cleanPattern "||ads*" :=
  ⟨by decide, by decide, C6_amended "||ads*" (by decide) (by decide)⟩

/-! ### Association-list lemmas -/

theorem assocDelete_cons {κ α : Type} [DecidableEq κ] (k3 : κ) (v3 : α) (rest : List (κ × α))
    (k : κ) :
    assocDelete ((k3, v3) :: rest) k =
      if k3 = k then assocDelete rest k else (k3, v3) :: assocDelete rest k := by
  by_cases h : k3 = k
  · simp [assocDelete, List.filter_cons, h]
  · simp [assocDelete, List.filter_cons, h]

theorem assocGet_assocSet_self {κ α : Type} [DecidableEq κ] (m : List (κ × α)) (k : κ) (v : α) :
    assocGet (assocSet m k v) k = some v := by
  induction m with
  | nil => simp [assocSet, assocGet]
  | cons e rest ih =>
      obtain ⟨k3, v3⟩ := e
      unfold assocSet
      by_cases h : k3 = k
      · rw [if_pos h]
        unfold assocGet
        rw [if_pos rfl]
      · rw [if_neg h]
        unfold assocGet
        rw [if_neg h]
        exact ih

theorem assocGet_assocSet_ne {κ α : Type} [DecidableEq κ] (m : List (κ × α)) (k k2 : κ) (v : α)
    (hne : k2 ≠ k) : assocGet (assocSet m k v) k2 = assocGet m k2 := by
  induction m with
  | nil =>
      show assocGet [(k, v)] k2 = assocGet ([] : List (κ × α)) k2
      unfold assocGet
      rw [if_neg (fun h => hne h.symm)]
      rfl
  | cons e rest ih =>
      obtain ⟨k3, v3⟩ := e
      unfold assocSet
      by_cases h : k3 = k
      · rw [if_pos h]
        have h3 : k3 ≠ k2 := by
          rw [h]
          exact fun h2 => hne h2.symm
        unfold assocGet
        rw [if_neg (fun h2 => hne h2.symm), if_neg h3]
      · rw [if_neg h]
        unfold assocGet
        by_cases h2 : k3 = k2
        · rw [if_pos h2, if_pos h2]
        · rw [if_neg h2, if_neg h2]
          exact ih

theorem assocGet_assocDelete_self {κ α : Type} [DecidableEq κ] (m : List (κ × α)) (k : κ) :
    assocGet (assocDelete m k) k = none := by
  induction m with
  | nil => rfl
  | cons e rest ih =>
      obtain ⟨k3, v3⟩ := e
      rw [assocDelete_cons]
      by_cases h : k3 = k
      · rw [if_pos h]
        exact ih
      · rw [if_neg h]
        unfold assocGet
        rw [if_neg h]
        exact ih

theorem assocGet_assocDelete_ne {κ α : Type} [DecidableEq κ] (m : List (κ × α)) (k k2 : κ)
    (hne : k2 ≠ k) : assocGet (assocDelete m k) k2 = assocGet m k2 := by
  induction m with
  | nil => rfl
  | cons e rest ih =>
      obtain ⟨k3, v3⟩ := e
      rw [assocDelete_cons]
      by_cases h : k3 = k
      · have h3 : k3 ≠ k2 := by
          rw [h]
          exact fun h2 => hne h2.symm
        rw [if_pos h]
        conv_rhs => unfold assocGet
        rw [if_neg h3]
        exact ih
      · rw [if_neg h]
        unfold assocGet
        by_cases h2 : k3 = k2
        · rw [if_pos h2, if_pos h2]
        · rw [if_neg h2, if_neg h2]
          exact ih

theorem assocSet_of_get_none {κ α : Type} [DecidableEq κ] (m : List (κ × α)) (k : κ) (v : α)
    (h : assocGet m k = none) : assocSet m k v = m ++ [(k, v)] := by
  induction m with
  | nil => rfl
  | cons e rest ih =>
      obtain ⟨k3, v3⟩ := e
      unfold assocGet at h
      by_cases he : k3 = k
      · rw [if_pos he] at h
        exact absurd h (by simp)
      · rw [if_neg he] at h
        unfold assocSet
        rw [if_neg he, ih h]
        rfl

theorem length_assocSet_le {κ α : Type} [DecidableEq κ] (m : List (κ × α)) (k : κ) (v : α) :
    (assocSet m k v).length ≤ m.length + 1 := by
  induction m with
  | nil => simp [assocSet]
  | cons e rest ih =>
      obtain ⟨k3, v3⟩ := e
      unfold assocSet
      by_cases h : k3 = k
      · rw [if_pos h]
        simp
      · rw [if_neg h]
        simp only [List.length_cons]
        omega

theorem length_assocDelete_le {κ α : Type} [DecidableEq κ] (m : List (κ × α)) (k : κ) :
    (assocDelete m k).length ≤ m.length :=
  List.length_filter_le _ _

theorem length_assocDelete_lt {κ α : Type} [DecidableEq κ] (m : List (κ × α)) (k : κ) (v : α)
    (h : assocGet m k = some v) : (assocDelete m k).length < m.length := by
  induction m with
  | nil => simp [assocGet] at h
  | cons e rest ih =>
      obtain ⟨k3, v3⟩ := e
      rw [assocDelete_cons]
      unfold assocGet at h
      by_cases he : k3 = k
      · rw [if_pos he]
        have := length_assocDelete_le rest k
        simp only [List.length_cons]
        omega
      · rw [if_neg he] at h
        rw [if_neg he]
        have := ih h
        simp only [List.length_cons]
        omega

/-! ### Claim C3: MatchCache is a strict LRU -/

theorem LRU_get_hit {α : Type} (c : LRU α) (k : String) (v : α)
    (h : assocGet c.cache k = some v) :
    LRU.get c k = (some v, { c with cache := assocSet (assocDelete c.cache k) k v }) := by
  unfold LRU.get
  rw [h]

theorem LRU_set_full {α : Type} (c : LRU α) (k k0 : String) (v v0 : α)
    (hcap : c.maxSize ≤ c.cache.length) (hhead : c.cache.head? = some (k0, v0)) :
    LRU.set c k v = { c with cache := assocSet (assocDelete c.cache k0) k v } := by
  unfold LRU.set
  rw [if_pos hcap, hhead]

theorem LRU_set_room {α : Type} (c : LRU α) (k : String) (v : α)
    (hcap : ¬ c.maxSize ≤ c.cache.length) :
    LRU.set c k v = { c with cache := assocSet c.cache k v } := by
  unfold LRU.set
  rw [if_neg hcap]

/-- Claim C3: get on a present key returns its value and moves the binding to
the most-recently-used end of the iteration order; set on a cache at capacity
removes the oldest (head) key, keeps every other key's presence unchanged,
and binds the new key; has leaves the cache state untouched; and the concrete
capacity-2 sequence set a, set b, get a, set c leaves exactly the bindings a
and c with b evicted. -/
theorem C3_lru :
    (∀ (α : Type) (c : LRU α) (k : String) (v : α), assocGet c.cache k = some v →
      (LRU.get c k).1 = some v ∧
      (LRU.get c k).2.cache = assocDelete c.cache k ++ [(k, v)]) ∧
    (∀ (α : Type) (c : LRU α) (k k0 : String) (v v0 : α),
      c.cache.head? = some (k0, v0) → c.maxSize ≤ c.cache.length → k ≠ k0 →
      LRU.has (LRU.set c k v) k0 = false ∧
      assocGet (LRU.set c k v).cache k = some v ∧
      ∀ k2, k2 ≠ k0 → k2 ≠ k → LRU.has (LRU.set c k v) k2 = LRU.has c k2) ∧
    (∀ (α : Type) (c : LRU α) (k : String), runOp c (CacheOp.has k) = c) ∧
    (runOps (emptyLRU Nat 2)
        [CacheOp.set "a" 1, CacheOp.set "b" 2, CacheOp.get "a", CacheOp.set "c" 3]).cache =
      [("a", 1), ("c", 3)] ∧
    LRU.has (runOps (emptyLRU Nat 2)
        [CacheOp.set "a" 1, CacheOp.set "b" 2, CacheOp.get "a", CacheOp.set "c" 3]) "b" =
      false := by
  refine ⟨?_, ?_, ?_, ?_, ?_⟩
  · intro α c k v h
    rw [LRU_get_hit c k v h]
    refine ⟨rfl, ?_⟩
    exact assocSet_of_get_none _ _ _ (assocGet_assocDelete_self c.cache k)
  · intro α c k k0 v v0 hhead hcap hne
    rw [LRU_set_full c k k0 v v0 hcap hhead]
    refine ⟨?_, ?_, ?_⟩
    · unfold LRU.has
      show (assocGet (assocSet (assocDelete c.cache k0) k v) k0).isSome = false
      rw [assocGet_assocSet_ne _ _ _ _ (fun h => hne h.symm), assocGet_assocDelete_self]
      rfl
    · exact assocGet_assocSet_self _ _ _
    · intro k2 h2 h3
      unfold LRU.has
      show (assocGet (assocSet (assocDelete c.cache k0) k v) k2).isSome = _
      rw [assocGet_assocSet_ne _ _ _ _ h3, assocGet_assocDelete_ne _ _ _ h2]
  · intro α c k
    rfl
  · decide
  · decide

/-- Witness for C3: the LRU facts applied at concrete caches. -/
theorem C3_witness :
    ((LRU.get (⟨[("x", 5), ("y", 7)], 2⟩ : LRU Nat) "x").1 = some 5 ∧
      (LRU.get (⟨[("x", 5), ("y", 7)], 2⟩ : LRU Nat) "x").2.cache =
        assocDelete [("x", 5), ("y", 7)] "x" ++ [("x", 5)]) ∧
    (LRU.has (LRU.set (⟨[("x", 5), ("y", 7)], 2⟩ : LRU Nat) "z" 9) "x" = false ∧
      assocGet (LRU.set (⟨[("x", 5), ("y", 7)], 2⟩ : LRU Nat) "z" 9).cache "z" = some 9 ∧
      ∀ k2, k2 ≠ "x" → k2 ≠ "z" →
        LRU.has (LRU.set (⟨[("x", 5), ("y", 7)], 2⟩ : LRU Nat) "z" 9) k2 =
          LRU.has (⟨[("x", 5), ("y", 7)], 2⟩ : LRU Nat) k2) :=
  ⟨C3_lru.1 Nat ⟨[("x", 5), ("y", 7)], 2⟩ "x" 5 (by decide),
    C3_lru.2.1 Nat ⟨[("x", 5), ("y", 7)], 2⟩ "z" "x" 9 5 rfl (by decide) (by decide)⟩

/-! ### Claim C10: cache size never exceeds capacity -/

theorem runOp_size_le {α : Type} (c : LRU α) (op : CacheOp α) (h1 : 1 ≤ c.maxSize)
    (h : c.cache.length ≤ c.maxSize) :
    (runOp c op).cache.length ≤ c.maxSize ∧ (runOp c op).maxSize = c.maxSize := by
  cases op with
  | has k => exact ⟨h, rfl⟩
  | get k =>
      cases hg : assocGet c.cache k with
      | none =>
          have he : runOp c (CacheOp.get k) = c := by
            show (LRU.get c k).2 = c
            unfold LRU.get
            rw [hg]
        
          rw [he]
          exact ⟨h, rfl⟩
      | some v =>
          have he : runOp c (CacheOp.get k) =
              { c with cache := assocSet (assocDelete c.cache k) k v } := by
            show (LRU.get c k).2 = _
            rw [LRU_get_hit c k v hg]
          rw [he]
          refine ⟨?_, rfl⟩
          show (assocSet (assocDelete c.cache k) k v).length ≤ c.maxSize
          have hd := length_assocDelete_lt c.cache k v hg
          have hs := length_assocSet_le (assocDelete c.cache k) k v
          omega
  | set k v =>
      by_cases hcap : c.maxSize ≤ c.cache.length
      · have hnil : c.cache ≠ [] := by
          intro he2
          rw [he2] at hcap
          simp at hcap
          omega
        obtain ⟨e, hh⟩ : ∃ e, c.cache.head? = some e := by
          cases hq : c.cache.head? with
          | none => exact absurd (List.head?_eq_none_iff.mp hq) hnil
          | some e => exact ⟨e, rfl⟩
        obtain ⟨k0, v0⟩ := e
        have he : runOp c (CacheOp.set k v) =
            { c with cache := assocSet (assocDelete c.cache k0) k v } := by
          show LRU.set c k v = _
          exact LRU_set_full c k k0 v v0 hcap hh
        rw [he]
        have hget : assocGet c.cache k0 = some v0 := by
          cases hc : c.cache with
          | nil => exact absurd hc hnil
          | cons e2 rest =>
              rw [hc] at hh
              simp at hh
              rw [hh]
              unfold assocGet
              rw [if_pos rfl]
        refine ⟨?_, rfl⟩
        show (assocSet (assocDelete c.cache k0) k v).length ≤ c.maxSize
        have hd := length_assocDelete_lt c.cache k0 v0 hget
        have hs := length_assocSet_le (assocDelete c.cache k0) k v
        omega
      · have he : runOp c (CacheOp.set k v) = { c with cache := assocSet c.cache k v } := by
          show LRU.set c k v = _
          exact LRU_set_room c k v hcap
        rw [he]
        refine ⟨?_, rfl⟩
        show (assocSet c.cache k v).length ≤ c.maxSize
        have hs := length_assocSet_le c.cache k v
        omega

theorem runOps_size_le {α : Type} (ops : List (CacheOp α)) (c : LRU α) (h1 : 1 ≤ c.maxSize)
    (h : c.cache.length ≤ c.maxSize) :
    (runOps c ops).cache.length ≤ c.maxSize ∧ (runOps c ops).maxSize = c.maxSize := by
  induction ops generalizing c with
  | nil => exact ⟨h, rfl⟩
  | cons op rest ih =>
      have hstep := runOp_size_le c op h1 h
      have hrec := ih (runOp c op) (hstep.2 ▸ h1) (hstep.2 ▸ hstep.1)
      have hfold : runOps c (op :: rest) = runOps (runOp c op) rest := rfl
      rw [hfold]
      exact ⟨hstep.2 ▸ hrec.1, hrec.2.trans hstep.2⟩

/-- Claim C10: for every capacity of at least one, every sequence of get, set
and has operations run from the empty cache keeps the entry count at or
below the capacity, because set deletes the oldest binding before inserting
whenever the size has reached the capacity. -/
theorem C10_bounded (α : Type) (ms : Nat) (h1 : 1 ≤ ms) (ops : List (CacheOp α)) :
    (runOps (emptyLRU α ms) ops).cache.length ≤ ms := by
  exact (runOps_size_le ops (emptyLRU α ms) h1 (by simp [emptyLRU])).1

/-- Witness for C10: the bound applied to a concrete operation sequence that
overfills a capacity-2 cache. -/
theorem C10_witness :
    (runOps (emptyLRU Nat 2)
      [CacheOp.set "a" 1, CacheOp.set "b" 2, CacheOp.set "c" 3, CacheOp.get "a",
        CacheOp.set "d" 4, CacheOp.has "b"]).cache.length ≤ 2 :=
  C10_bounded Nat 2 (by decide)
    [CacheOp.set "a" 1, CacheOp.set "b" 2, CacheOp.set "c" 3, CacheOp.get "a",
      CacheOp.set "d" 4, CacheOp.has "b"]

/-! ### Claim C4: session event cap and counters -/

theorem recordMatch_totalCount (K : Nat) (td : TabData) (e : BlockedEntry) :
    (recordMatch K td e).totalCount = td.totalCount + 1 := by
  by_cases h1 : e.category = "Tracker" <;> by_cases h2 : td.urls.length < K <;>
    simp [recordMatch, h1, h2]

theorem recordMatch_counters (K : Nat) (td : TabData) (e : BlockedEntry) :
    (recordMatch K td e).adCount + (recordMatch K td e).trackerCount =
      td.adCount + td.trackerCount + 1 := by
  by_cases h1 : e.category = "Tracker" <;> by_cases h2 : td.urls.length < K <;>
    simp [recordMatch, h1, h2] <;> omega

theorem recordMatch_urls (K : Nat) (td : TabData) (e : BlockedEntry) :
    (recordMatch K td e).urls = if td.urls.length < K then e :: td.urls else td.urls := by
  by_cases h1 : e.category = "Tracker" <;> by_cases h2 : td.urls.length < K <;>
    simp [recordMatch, h1, h2]

theorem foldl_recordMatch_totalCount (K : Nat) (es : List BlockedEntry) (td : TabData) :
    (es.foldl (recordMatch K) td).totalCount = td.totalCount + es.length := by
  induction es generalizing td with
  | nil => rfl
  | cons e rest ih =>
      rw [List.foldl_cons, ih, recordMatch_totalCount, List.length_cons]
      omega

theorem foldl_recordMatch_counters (K : Nat) (es : List BlockedEntry) (td : TabData) :
    (es.foldl (recordMatch K) td).adCount + (es.foldl (recordMatch K) td).trackerCount =
      td.adCount + td.trackerCount + es.length := by
  induction es generalizing td with
  | nil => rfl
  | cons e rest ih =>
      rw [List.foldl_cons, ih, recordMatch_counters, List.length_cons]
      omega

theorem foldl_recordMatch_urls (K : Nat) (es : List BlockedEntry) (td : TabData) :
    (es.foldl (recordMatch K) td).urls =
      (es.take (K - td.urls.length)).reverse ++ td.urls := by
  induction es generalizing td with
  | nil => simp
  | cons e rest ih =>
      rw [List.foldl_cons, ih, recordMatch_urls]
      by_cases h : td.urls.length < K
      · rw [if_pos h]
        have hk : K - td.urls.length = (K - (td.urls.length + 1)) + 1 := by omega
        rw [hk, List.take_succ_cons]
        simp
      · rw [if_neg h]
        have hk : K - td.urls.length = 0 := by omega
        rw [hk]
        simp

/-- Claim C4: starting from a fresh session, after the matches in es the
recent-event list equals the reversed first-K events (hence it has
min N K entries, its newest retained event first, and it is extended only
while strictly below the cap), while totalCount counts every match and the
two category counters sum to every match. -/
theorem C4_session_counters (K : Nat) (es : List BlockedEntry) :
    (es.foldl (recordMatch K) (freshTab "")).urls = (es.take K).reverse ∧
    (es.foldl (recordMatch K) (freshTab "")).urls.length = min es.length K ∧
    (es.foldl (recordMatch K) (freshTab "")).totalCount = es.length ∧
    (es.foldl (recordMatch K) (freshTab "")).adCount +
      (es.foldl (recordMatch K) (freshTab "")).trackerCount = es.length := by
  have hu : (es.foldl (recordMatch K) (freshTab "")).urls = (es.take K).reverse := by
    have h := foldl_recordMatch_urls K es (freshTab "")
    simpa [freshTab] using h
  refine ⟨hu, ?_, ?_, ?_⟩
  · rw [hu]
    simp [List.length_take]
    omega
  · have h := foldl_recordMatch_totalCount K es (freshTab "")
    simpa [freshTab] using h
  · have h := foldl_recordMatch_counters K es (freshTab "")
    simpa [freshTab] using h

/-! ### Claim C5: navigation to a new hostname fully resets the session -/

/-- Claim C5: when the tab's recorded domain differs from the new hostname,
the tab record is replaced by the fresh record for that hostname (events and
all per-session counts reset to empty and zero), every other tab is
untouched, and the persisted global counters are untouched. -/
theorem C5_domain_reset (s : BgState) (tabId : Nat) (td : TabData) (host : String)
    (hlook : assocGet s.tabs tabId = some td) (hne : td.domain ≠ host) :
    assocGet (onUrlChange s tabId host).tabs tabId =
      some { domain := host, urls := [], totalCount := 0, adCount := 0, trackerCount := 0 } ∧
    (∀ tid2, tid2 ≠ tabId →
      assocGet (onUrlChange s tabId host).tabs tid2 = assocGet s.tabs tid2) ∧
    (onUrlChange s tabId host).globals = s.globals := by
  have hstate : onUrlChange s tabId host =
      { s with tabs := assocSet s.tabs tabId (freshTab host) } := by
    unfold onUrlChange
    rw [hlook]
    simp [hne]
  rw [hstate]
  refine ⟨?_, ?_, rfl⟩
  · exact assocGet_assocSet_self s.tabs tabId (freshTab host)
  · intro tid2 h2
    exact assocGet_assocSet_ne s.tabs tabId tid2 (freshTab host) h2

/-- Witness for C5: the reset applied to a concrete two-tab state. -/
theorem C5_witness :
    assocGet (onUrlChange
        ⟨[(1, ⟨"domainA", [], 5, 3, 2⟩), (2, ⟨"other", [], 7, 7, 0⟩)], ⟨42, 9, 9, 9, 9⟩⟩
        1 "domainB").tabs 1 =
      some { domain := "domainB", urls := [], totalCount := 0, adCount := 0, trackerCount := 0 } ∧
    (onUrlChange
        ⟨[(1, ⟨"domainA", [], 5, 3, 2⟩), (2, ⟨"other", [], 7, 7, 0⟩)], ⟨42, 9, 9, 9, 9⟩⟩
        1 "domainB").globals = ⟨42, 9, 9, 9, 9⟩ := by
  have h := C5_domain_reset
    ⟨[(1, ⟨"domainA", [], 5, 3, 2⟩), (2, ⟨"other", [], 7, 7, 0⟩)], ⟨42, 9, 9, 9, 9⟩⟩
    1 ⟨"domainA", [], 5, 3, 2⟩ "domainB" (by decide) (by decide)
  exact ⟨h.1, h.2.2⟩

/-! ### Claim C8: the read-then-write race on the global counter -/

/-- Claim C8: with both in-flight updates reading before either writes
(schedule A-read, B-read, A-write, B-write), both read the stale total 0 and
both write 1, so two completed matched requests raise the stored all-time
total by only one; the sequential schedule raises it by two, so the loss is
caused purely by the interleaving. -/
theorem C8_lost_update :
    raceRun ⟨0, IncTask.toRead, IncTask.toRead⟩ [true, false, true, false] =
      ⟨1, IncTask.done, IncTask.done⟩ ∧
    raceRun ⟨0, IncTask.toRead, IncTask.toRead⟩ [true, true, false, false] =
      ⟨2, IncTask.done, IncTask.done⟩ ∧
    (1 : Nat) ≠ 2 :=
  ⟨rfl, rfl, by decide⟩

/-! ### Claim C7: PersistenceBatcher timer discipline -/

/-- Claim C7 fails as stated on V1.8: after a dirty mark at time 0 (flush
scheduled for 1000) and a second dirty mark at time 500 while that timer is
pending, the only live flush timeout fires at 1500, and no live timeout
fires at the time scheduled by the first mark — the delay was reset. -/
theorem C7_counterexample :
    (scheduleStorageUpdate (scheduleStorageUpdate ⟨[], none, 0⟩ 0) 500).live.map
      FlushTimer.fireAt = [1500] ∧
    ∀ ft ∈ (scheduleStorageUpdate (scheduleStorageUpdate ⟨[], none, 0⟩ 0) 500).live,
      ft.fireAt ≠ 0 + STORAGE_BATCH_DELAY := by
  refine ⟨by decide, by decide⟩

/-- Claim C7 (amended): both batchers keep at most one pending flush timer,
but marking dirty while a timer is pending behaves differently in the two
versions.  V1.8's scheduleStorageUpdate clears the pending timeout and
schedules a new one, so the flush fires STORAGE_BATCH_DELAY after the most
recent dirty mark (the delay is reset, contradicting the claim — see the
counterexample).  The older part_002 scheduleBatchedStorageUpdate is the
no-op re-arm the claim describes: with a timer pending it only records the
dirty tab, leaving the live timeout and its fire time unchanged. -/
theorem C7_amended :
    (∀ (s : BatcherV18) (now : Nat), tidyTimers s.live s.timerVar →
      (scheduleStorageUpdate s now).live.map FlushTimer.fireAt =
        [now + STORAGE_BATCH_DELAY] ∧
      tidyTimers (scheduleStorageUpdate s now).live (scheduleStorageUpdate s now).timerVar) ∧
    (∀ (s : BatcherOpt) (tabId now i : Nat), s.timerVar = some i →
      (scheduleBatchedStorageUpdate s tabId now).live = s.live ∧
      (scheduleBatchedStorageUpdate s tabId now).timerVar = s.timerVar ∧
      tabId ∈ (scheduleBatchedStorageUpdate s tabId now).dirty) := by
  constructor
  · intro s now htidy
    have hcleared :
        (match s.timerVar with
          | some i => clearT s.live i
          | none => s.live) = [] := by
      cases hv : s.timerVar with
      | none =>
          cases hl : s.live with
          | nil => rfl
          | cons ft rest =>
              have := htidy.2 ft (by rw [hl]; exact List.mem_cons_self ft rest)
              rw [hv] at this
              exact absurd this (by simp)
      | some i =>
          apply List.filter_eq_nil_iff.mpr
          intro ft hft
          have := htidy.2 ft hft
          rw [hv] at this
          simp at this
          simp [this]
    constructor
    · unfold scheduleStorageUpdate
      rw [hcleared]
      rfl
    · unfold scheduleStorageUpdate
      rw [hcleared]
      refine ⟨by simp, ?_⟩
      intro ft hft
      simp at hft
      rw [hft]
  · intro s tabId now i hv
    unfold scheduleBatchedStorageUpdate
    rw [hv]
    refine ⟨rfl, rfl, ?_⟩
    by_cases hc : s.dirty.contains tabId = true
    · simp only [hc, if_true]
      obtain ⟨a, ha, hb⟩ := List.contains_iff_exists_mem_beq.mp hc
      have hab : tabId = a := by simpa using hb
      rw [hab]
      exact ha
    · simp only [Bool.not_eq_true] at hc
      simp only [hc, Bool.false_eq_true, if_false]
      exact List.mem_append_right _ (List.mem_singleton.mpr rfl)

/-- Witness for C7: the amended statements applied at concrete batcher
states with a pending timer. -/
theorem C7_witness :
    ((scheduleStorageUpdate ⟨[⟨5, 700⟩], some 5, 6⟩ 900).live.map FlushTimer.fireAt =
        [900 + STORAGE_BATCH_DELAY] ∧
      tidyTimers (scheduleStorageUpdate ⟨[⟨5, 700⟩], some 5, 6⟩ 900).live
        (scheduleStorageUpdate ⟨[⟨5, 700⟩], some 5, 6⟩ 900).timerVar) ∧
    ((scheduleBatchedStorageUpdate ⟨[⟨0, 1000⟩], some 0, [7], 1⟩ 9 500).live =
        [⟨0, 1000⟩] ∧
      (scheduleBatchedStorageUpdate ⟨[⟨0, 1000⟩], some 0, [7], 1⟩ 9 500).timerVar = some 0 ∧
      9 ∈ (scheduleBatchedStorageUpdate ⟨[⟨0, 1000⟩], some 0, [7], 1⟩ 9 500).dirty) :=
  ⟨C7_amended.1 ⟨[⟨5, 700⟩], some 5, 6⟩ 900 (by decide),
    C7_amended.2 ⟨[⟨0, 1000⟩], some 0, [7], 1⟩ 9 500 0 rfl⟩

/-! ### Trie walk equations and insertion lemmas -/

theorem terminalAt_nil (t : TrieNode) : terminalAt t [] = t.isPat := rfl

theorem categoryAt_nil (t : TrieNode) : categoryAt t [] = t.cat := rfl

theorem findNode_cons_some (t u : TrieNode) (c : Char) (q : List Char)
    (hg : assocGet t.children c = some u) : findNode t (c :: q) = findNode u q := by
  show (match assocGet t.children c with
    | none => none
    | some u2 => findNode u2 q) = findNode u q
  rw [hg]

theorem findNode_cons_none (t : TrieNode) (c : Char) (q : List Char)
    (hg : assocGet t.children c = none) : findNode t (c :: q) = none := by
  show (match assocGet t.children c with
    | none => none
    | some u2 => findNode u2 q) = none
  rw [hg]

theorem terminalAt_cons_some (t u : TrieNode) (c : Char) (q : List Char)
    (hg : assocGet t.children c = some u) : terminalAt t (c :: q) = terminalAt u q := by
  unfold terminalAt
  rw [findNode_cons_some t u c q hg]

theorem terminalAt_cons_none (t : TrieNode) (c : Char) (q : List Char)
    (hg : assocGet t.children c = none) : terminalAt t (c :: q) = false := by
  unfold terminalAt
  rw [findNode_cons_none t c q hg]

theorem categoryAt_cons_some (t u : TrieNode) (c : Char) (q : List Char)
    (hg : assocGet t.children c = some u) : categoryAt t (c :: q) = categoryAt u q := by
  unfold categoryAt
  rw [findNode_cons_some t u c q hg]

theorem insertChars_nil (cs : List (Char × TrieNode)) (b : Bool) (c0 : Option String)
    (cat : String) : insertChars (.mk cs b c0) [] cat = .mk cs true (some cat) := rfl

theorem insertChars_cons (cs : List (Char × TrieNode)) (b : Bool) (c0 : Option String)
    (c : Char) (rest : List Char) (cat : String) :
    insertChars (.mk cs b c0) (c :: rest) cat =
      .mk (assocSet cs c (insertChars (childOf cs c) rest cat)) b c0 := rfl

theorem terminalAt_insertChars_self (p : List Char) :
    ∀ (t : TrieNode) (cat : String), terminalAt (insertChars t p cat) p = true := by
  induction p with
  | nil =>
      intro t cat
      cases t with
      | mk cs b c0 => rfl
  | cons c rest ih =>
      intro t cat
      cases t with
      | mk cs b c0 =>
          rw [insertChars_cons]
          have hg : assocGet (TrieNode.mk (assocSet cs c (insertChars (childOf cs c) rest cat))
              b c0).children c = some (insertChars (childOf cs c) rest cat) := by
            show assocGet (assocSet cs c (insertChars (childOf cs c) rest cat)) c = _
            exact assocGet_assocSet_self cs c _
          rw [terminalAt_cons_some _ _ _ _ hg]
          exact ih (childOf cs c) cat

theorem categoryAt_insertChars_self (p : List Char) :
    ∀ (t : TrieNode) (cat : String), categoryAt (insertChars t p cat) p = some cat := by
  induction p with
  | nil =>
      intro t cat
      cases t with
      | mk cs b c0 => rfl
  | cons c rest ih =>
      intro t cat
      cases t with
      | mk cs b c0 =>
          rw [insertChars_cons]
          have hg : assocGet (TrieNode.mk (assocSet cs c (insertChars (childOf cs c) rest cat))
              b c0).children c = some (insertChars (childOf cs c) rest cat) := by
            show assocGet (assocSet cs c (insertChars (childOf cs c) rest cat)) c = _
            exact assocGet_assocSet_self cs c _
          rw [categoryAt_cons_some _ _ _ _ hg]
          exact ih (childOf cs c) cat

theorem terminalAt_insertChars_of (p : List Char) :
    ∀ (t : TrieNode) (q : List Char) (cat : String), terminalAt t q = true →
      terminalAt (insertChars t p cat) q = true := by
  induction p with
  | nil =>
      intro t q cat h
      cases t with
      | mk cs b c0 =>
          rw [insertChars_nil]
          cases q with
          | nil => rfl
          | cons d q2 =>
              cases hg : assocGet cs d with
              | none =>
                  rw [terminalAt_cons_none (TrieNode.mk cs b c0) d q2 hg] at h
                  exact absurd h (by simp)
              | some u =>
                  rw [terminalAt_cons_some (TrieNode.mk cs b c0) u d q2 hg] at h
                  rw [terminalAt_cons_some (TrieNode.mk cs true (some cat)) u d q2 hg]
                  exact h
  | cons c rest ih =>
      intro t q cat h
      cases t with
      | mk cs b c0 =>
          rw [insertChars_cons]
          cases q with
          | nil => exact h
          | cons d q2 =>
              cases hg : assocGet cs d with
              | none =>
                  rw [terminalAt_cons_none (TrieNode.mk cs b c0) d q2 hg] at h
                  exact absurd h (by simp)
              | some u =>
                  rw [terminalAt_cons_some (TrieNode.mk cs b c0) u d q2 hg] at h
                  by_cases hdc : d = c
                  · subst hdc
                    have hu : childOf cs d = u := by
                      unfold childOf
                      rw [hg]
                    have hg2 : assocGet (TrieNode.mk
                        (assocSet cs d (insertChars (childOf cs d) rest cat)) b c0).children d =
                        some (insertChars (childOf cs d) rest cat) := by
                      show assocGet (assocSet cs d _) d = _
                      exact assocGet_assocSet_self cs d _
                    rw [terminalAt_cons_some _ _ _ _ hg2, hu]
                    exact ih u q2 cat h
                  · have hg2 : assocGet (TrieNode.mk
                        (assocSet cs c (insertChars (childOf cs c) rest cat)) b c0).children d =
                        some u := by
                      show assocGet (assocSet cs c _) d = some u
                      rw [assocGet_assocSet_ne _ _ _ _ hdc]
                      exact hg
                    rw [terminalAt_cons_some _ _ _ _ hg2]
                    exact h

theorem terminalAt_foldl_of (pats : List (String × String)) :
    ∀ (t : TrieNode) (q : List Char), terminalAt t q = true →
      terminalAt (pats.foldl (fun t2 pc => FilterTrie.insert t2 pc.1 pc.2) t) q = true := by
  induction pats with
  | nil => intro t q h; exact h
  | cons pc rest ih =>
      intro t q h
      rw [List.foldl_cons]
      exact ih _ q (terminalAt_insertChars_of _ t q pc.2 h)

theorem terminalAt_foldl_mem (pats : List (String × String)) :
    ∀ (t0 : TrieNode) (p c : String), (p, c) ∈ pats →
      terminalAt (pats.foldl (fun t2 pc => FilterTrie.insert t2 pc.1 pc.2) t0)
        (cleanChars p.data) = true := by
  induction pats with
  | nil =>
      intro t0 p c h
      simp at h
  | cons pc rest ih =>
      intro t0 p c hmem
      rw [List.foldl_cons]
      rcases List.mem_cons.mp hmem with heq | hmem2
      · have hins : terminalAt (FilterTrie.insert t0 pc.1 pc.2) (cleanChars p.data) = true := by
          rw [← heq]
          exact terminalAt_insertChars_self _ t0 c
        exact terminalAt_foldl_of rest _ _ hins
      · exact ih _ p c hmem2

theorem terminalAt_buildTrie_mem (pats : List (String × String)) (p c : String)
    (hmem : (p, c) ∈ pats) : terminalAt (buildTrie pats) (cleanChars p.data) = true := by
  unfold buildTrie
  exact terminalAt_foldl_mem pats emptyNode p c hmem

/-! ### Search lemmas: soundness and completeness of the multi-start scan -/

theorem searchFrom_nil (t : TrieNode) :
    FilterTrie.searchFrom t [] = if t.isPat then some ⟨true, t.cat⟩ else none := rfl

theorem searchFrom_cons (t : TrieNode) (c : Char) (rest : List Char) :
    FilterTrie.searchFrom t (c :: rest) =
      if t.isPat then some ⟨true, t.cat⟩
      else
        match assocGet t.children c with
        | none => none
        | some u => FilterTrie.searchFrom u rest := rfl

theorem matchesAux_cons (t : TrieNode) (c : Char) (rest : List Char) :
    matchesAux t (c :: rest) =
      match FilterTrie.searchFrom t (c :: rest) with
      | some r => some r
      | none => matchesAux t rest := rfl

theorem beg_length_le {q s : List Char} (hbeg : beg q s) : q.length ≤ s.length := by
  unfold beg at hbeg
  have h := congrArg List.length hbeg
  rw [List.length_take] at h
  omega

theorem beg_cons {c d : Char} {q2 rest : List Char} (hbeg : beg (c :: q2) (d :: rest)) :
    d = c ∧ beg q2 rest := by
  unfold beg at hbeg ⊢
  rw [List.length_cons, List.take_succ_cons] at hbeg
  exact ⟨(List.cons_eq_cons.mp hbeg).1, (List.cons_eq_cons.mp hbeg).2⟩

theorem searchFrom_isSome_of_term (q : List Char) :
    ∀ (t : TrieNode) (s : List Char), terminalAt t q = true → beg q s →
      (FilterTrie.searchFrom t s).isSome = true := by
  induction q with
  | nil =>
      intro t s hterm hbeg
      have hp : t.isPat = true := hterm
      cases s with
      | nil =>
          rw [searchFrom_nil, if_pos hp]
          rfl
      | cons c rest =>
          rw [searchFrom_cons, if_pos hp]
          rfl
  | cons c q2 ih =>
      intro t s hterm hbeg
      cases s with
      | nil => exact absurd (beg_length_le hbeg) (by simp)
      | cons d rest =>
          obtain ⟨hd, hq⟩ := beg_cons hbeg
          subst hd
          by_cases hp : t.isPat = true
          · rw [searchFrom_cons, if_pos hp]
            rfl
          · rw [searchFrom_cons, if_neg hp]
            cases hg : assocGet t.children d with
            | none =>
                rw [terminalAt_cons_none t d q2 hg] at hterm
                exact absurd hterm (by simp)
            | some u =>
                rw [terminalAt_cons_some t u d q2 hg] at hterm
                exact ih u rest hterm hq

theorem searchFrom_some_spec (s : List Char) :
    ∀ (t : TrieNode) (r : MatchResult), FilterTrie.searchFrom t s = some r →
      ∃ q, beg q s ∧ terminalAt t q = true ∧ r = ⟨true, categoryAt t q⟩ ∧
        ∀ n, terminalAt t (s.take n) = true → q.length ≤ n := by
  induction s with
  | nil =>
      intro t r h
      rw [searchFrom_nil] at h
      by_cases hp : t.isPat = true
      · rw [if_pos hp] at h
        exact ⟨[], rfl, hp, (Option.some.inj h).symm, fun n _ => Nat.zero_le n⟩
      · rw [if_neg hp] at h
        exact absurd h (by simp)
  | cons c rest ih =>
      intro t r h
      rw [searchFrom_cons] at h
      by_cases hp : t.isPat = true
      · rw [if_pos hp] at h
        exact ⟨[], rfl, hp, (Option.some.inj h).symm, fun n _ => Nat.zero_le n⟩
      · rw [if_neg hp] at h
        cases hg : assocGet t.children c with
        | none =>
            rw [hg] at h
            exact absurd h (by simp)
        | some u =>
            rw [hg] at h
            obtain ⟨q0, hbeg, hterm, hr, hmin⟩ := ih u r h
            refine ⟨c :: q0, ?_, ?_, ?_, ?_⟩
            · unfold beg at hbeg ⊢
              rw [List.length_cons, List.take_succ_cons, hbeg]
            · rw [terminalAt_cons_some t u c q0 hg]
              exact hterm
            · rw [categoryAt_cons_some t u c q0 hg]
              exact hr
            · intro n hn
              cases n with
              | zero =>
                  rw [List.take_zero] at hn
                  exact absurd hn hp
              | succ n2 =>
                  rw [List.take_succ_cons, terminalAt_cons_some t u c _ hg] at hn
                  have := hmin n2 hn
                  rw [List.length_cons]
                  omega

theorem matchesAux_isSome_of (t : TrieNode) :
    ∀ (L : List Char) (i : Nat), i < L.length →
      (FilterTrie.searchFrom t (L.drop i)).isSome = true → (matchesAux t L).isSome = true := by
  intro L
  induction L with
  | nil =>
      intro i hi
      simp at hi
  | cons c rest ih =>
      intro i hi hs
      rw [matchesAux_cons]
      cases hr : FilterTrie.searchFrom t (c :: rest) with
      | some r => rfl
      | none =>
          cases i with
          | zero =>
              rw [List.drop_zero, hr] at hs
              exact absurd hs (by simp)
          | succ i2 =>
              rw [List.drop_succ_cons] at hs
              rw [List.length_cons] at hi
              exact ih i2 (by omega) hs

theorem matchesAux_some_shape (t : TrieNode) :
    ∀ (L : List Char) (r : MatchResult), matchesAux t L = some r →
      ∃ cat, r = ⟨true, cat⟩ := by
  intro L
  induction L with
  | nil =>
      intro r h
      exact absurd h (by simp [matchesAux])
  | cons c rest ih =>
      intro r h
      rw [matchesAux_cons] at h
      cases hr : FilterTrie.searchFrom t (c :: rest) with
      | some r2 =>
          rw [hr] at h
          obtain ⟨q, _, _, hshape, _⟩ := searchFrom_some_spec (c :: rest) t r2 hr
          exact ⟨categoryAt t q, (Option.some.inj h).symm ▸ hshape⟩
      | none =>
          rw [hr] at h
          exact ih r h

/-! ### The first-offset, shortest-pattern characterization of matches -/

theorem leadsToTerm_true_of (t : TrieNode) (q s : List Char)
    (hterm : terminalAt t q = true) (hbeg : beg q s) : leadsToTerm t s = true := by
  unfold leadsToTerm
  apply List.any_eq_true.mpr
  refine ⟨q.length, ?_, ?_⟩
  · apply List.mem_range.mpr
    have := beg_length_le hbeg
    omega
  · unfold beg at hbeg
    rw [hbeg]
    exact hterm

theorem matchesAux_first_min (t : TrieNode) :
    ∀ (i : Nat) (L p : List Char), i < L.length → terminalAt t p = true →
      beg p (L.drop i) →
      (∀ j, j < i → leadsToTerm t (L.drop j) = false) →
      (∀ n, n ≤ (L.drop i).length → terminalAt t ((L.drop i).take n) = true → p.length ≤ n) →
      matchesAux t L = some ⟨true, categoryAt t p⟩ := by
  intro i
  induction i with
  | zero =>
      intro L p hi hterm hbeg hnone hmin
      rw [List.drop_zero] at hbeg hmin
      cases L with
      | nil => simp at hi
      | cons c rest =>
          have hs := searchFrom_isSome_of_term p t (c :: rest) hterm hbeg
          cases hr : FilterTrie.searchFrom t (c :: rest) with
          | none =>
              rw [hr] at hs
              exact absurd hs (by simp)
          | some r =>
              obtain ⟨q, hqbeg, hqterm, hqr, hqmin⟩ := searchFrom_some_spec (c :: rest) t r hr
              have hq1 : q.length ≤ p.length := by
                apply hqmin
                unfold beg at hbeg
                rw [hbeg]
                exact hterm
              have hp1 : p.length ≤ q.length := by
                apply hmin q.length (beg_length_le hqbeg)
                unfold beg at hqbeg
                rw [hqbeg]
                exact hqterm
              have hqp : q = p := by
                have h1 : (c :: rest).take q.length = q := hqbeg
                have h2 : (c :: rest).take p.length = p := hbeg
                have hlen : q.length = p.length := by omega
                rw [hlen, h2] at h1
                exact h1.symm
              rw [matchesAux_cons, hr, hqr, hqp]
  | succ i2 ih =>
      intro L p hi hterm hbeg hnone hmin
      cases L with
      | nil => simp at hi
      | cons c rest =>
          cases hr : FilterTrie.searchFrom t (c :: rest) with
          | some r =>
              exfalso
              obtain ⟨q, hqbeg, hqterm, _, _⟩ := searchFrom_some_spec (c :: rest) t r hr
              have h0 := hnone 0 (Nat.succ_pos i2)
              rw [List.drop_zero] at h0
              have h1 := leadsToTerm_true_of t q (c :: rest) hqterm hqbeg
              rw [h0] at h1
              exact absurd h1 (by simp)
          | none =>
              rw [matchesAux_cons, hr]
              apply ih rest p
              · rw [List.length_cons] at hi
                omega
              · exact hterm
              · rw [List.drop_succ_cons] at hbeg
                exact hbeg
              · intro j hj
                have h2 := hnone (j + 1) (by omega)
                rw [List.drop_succ_cons] at h2
                exact h2
              · intro n hn hterm2
                rw [List.drop_succ_cons] at hmin
                exact hmin n hn hterm2

/-! ### Claim C2: scan order, earliest offset and shortest pattern win -/

/-- Claim C2: the scan tries starting offsets of the lowercased url left to
right and, within an offset, stops at the shallowest terminal node on the
walk.  Hence if no stored pattern starts at any offset before i, and p is a
stored (terminal) path starting at offset i that is no longer than any other
stored path starting there, the result is exactly the match for p: a shorter
stored pattern beats a longer one at the same offset, and an earlier offset
beats any later offset. -/
theorem C2_scan_order (t : TrieNode) (url : String) (i : Nat) (p : List Char)
    (hi : i < (lowerData url).length)
    (hterm : terminalAt t p = true)
    (hbeg : beg p ((lowerData url).drop i))
    (hnone : ∀ j, j < i → leadsToTerm t ((lowerData url).drop j) = false)
    (hmin : ∀ n, n ≤ ((lowerData url).drop i).length →
      terminalAt t (((lowerData url).drop i).take n) = true → p.length ≤ n) :
    FilterTrie.matches t url = some ⟨true, categoryAt t p⟩ := by
  unfold FilterTrie.matches
  exact matchesAux_first_min t i (lowerData url) p hi hterm hbeg hnone hmin

/-- Witness for C2: in a trie holding the patterns ab (category Ad) and a
(category Tracker), the url xab matches at offset 1, where the shorter
stored pattern a wins, giving the Tracker category. -/
theorem C2_witness :
    FilterTrie.matches (buildTrie [("ab", "Ad"), ("a", "Tracker")]) "xab" =
      some ⟨true, categoryAt (buildTrie [("ab", "Ad"), ("a", "Tracker")]) ['a']⟩ :=
  C2_scan_order (buildTrie [("ab", "Ad"), ("a", "Tracker")]) "xab" 1 ['a']
    (by decide) (by decide) (by decide) (by decide) (by decide)

/-! ### Claim C1: every stored pattern that occurs in the url forces a match -/

/-- Claim C1 fails as stated: first, with patterns a (Ad) and b (Tracker)
stored, the url ab satisfies the claim's hypothesis for the pattern b with
category Tracker (the suffix at offset 1 starts with b), yet the scan
returns the Ad match found at offset 0; second, with a pattern cleaning to
the empty string stored, the empty url satisfies the hypothesis (its empty
suffix starts with the empty pattern) yet the scan returns no match. -/
theorem C1_counterexample :
    ("b", "Tracker") ∈ [("a", "Ad"), ("b", "Tracker")] ∧
    beg (cleanChars "b".data) ((lowerData "ab").drop 1) ∧
    FilterTrie.matches (buildTrie [("a", "Ad"), ("b", "Tracker")]) "ab" =
      some ⟨true, some "Ad"⟩ ∧
    some (MatchResult.mk true (some "Ad")) ≠ some (MatchResult.mk true (some "Tracker")) ∧
    ("||^", "Ad") ∈ [("||^", "Ad")] ∧
    beg (cleanChars "||^".data) ((lowerData "").drop 0) ∧
    FilterTrie.matches (buildTrie [("||^", "Ad")]) "" = none := by
  decide

/-- Claim C1 (amended): for every pattern inserted into the store and every
nonempty url such that some suffix of the lowercased url starts with the
cleaned pattern, match returns a result with matched true; the category is
that of the first match in scan order (earliest offset, then shortest stored
pattern — see C2), not necessarily the category of the given pattern, and
the empty url returns no match even when the empty cleaned pattern is
stored. -/
theorem C1_amended (pats : List (String × String)) (p c : String) (url : String) (i : Nat)
    (hmem : (p, c) ∈ pats) (hne : url.data ≠ [])
    (hbeg : beg (cleanChars p.data) ((lowerData url).drop i)) :
    ∃ cat, FilterTrie.matches (buildTrie pats) url = some ⟨true, cat⟩ := by
  have hterm := terminalAt_buildTrie_mem pats p c hmem
  by_cases hi : i < (lowerData url).length
  · have hsome := searchFrom_isSome_of_term (cleanChars p.data) (buildTrie pats)
      ((lowerData url).drop i) hterm hbeg
    have hm := matchesAux_isSome_of (buildTrie pats) (lowerData url) i hi hsome
    obtain ⟨r, hr⟩ := Option.isSome_iff_exists.mp hm
    obtain ⟨cat, hcat⟩ := matchesAux_some_shape (buildTrie pats) (lowerData url) r hr
    refine ⟨cat, ?_⟩
    unfold FilterTrie.matches
    rw [hr, hcat]
  · have hdrop : (lowerData url).drop i = [] := List.drop_eq_nil_of_le (by omega)
    rw [hdrop] at hbeg
    have hq : cleanChars p.data = [] := by
      unfold beg at hbeg
      simpa using hbeg.symm
    rw [hq] at hterm
    have hp : (buildTrie pats).isPat = true := hterm
    have hld : lowerData url ≠ [] := by
      unfold lowerData
      simpa using hne
    cases hL : lowerData url with
    | nil => exact absurd hL hld
    | cons d rest =>
        refine ⟨(buildTrie pats).cat, ?_⟩
        unfold FilterTrie.matches
        rw [hL, matchesAux_cons, searchFrom_cons, if_pos hp]

/-- Witness for C1: the amended statement applied to the stored pattern b in
the two-pattern trie and the url ab. -/
theorem C1_witness :
    ("b", "Tracker") ∈ [("a", "Ad"), ("b", "Tracker")] ∧
    "ab".data ≠ [] ∧
    beg (cleanChars "b".data) ((lowerData "ab").drop 1) ∧
    ∃ cat, FilterTrie.matches (buildTrie [("a", "Ad"), ("b", "Tracker")]) "ab" =
      some ⟨true, cat⟩ :=
  ⟨by decide, by decide, by decide,
    C1_amended [("a", "Ad"), ("b", "Tracker")] "b" "Tracker" "ab" 1
      (by decide) (by decide) (by decide)⟩

/-! ### Claim C9: a surviving rule line that cleans to the empty string -/

/-- Claim C9: if a rule line that survives the loader's skip checks cleans
to the empty string, inserting it marks the trie root terminal with its
category; inserting further patterns keeps the root terminal; a trie whose
root is terminal matches every nonempty url (with the root's category,
found immediately at offset 0); and every trie returns no match for the
empty url. -/
theorem C9_empty_pattern :
    (∀ (line : String) (t : TrieNode) (cat : String),
      lineSurvives line = true →
      cleanChars (processedFilter line).data = [] →
      (FilterTrie.insert t (processedFilter line) cat).isPat = true ∧
      (FilterTrie.insert t (processedFilter line) cat).cat = some cat) ∧
    (∀ (t : TrieNode) (p cat : String), t.isPat = true →
      (FilterTrie.insert t p cat).isPat = true) ∧
    (∀ (t : TrieNode) (url : String), t.isPat = true → url.data ≠ [] →
      FilterTrie.matches t url = some ⟨true, t.cat⟩) ∧
    (∀ t : TrieNode, FilterTrie.matches t "" = none) := by
  refine ⟨?_, ?_, ?_, ?_⟩
  · intro line t cat hsurv hclean
    unfold FilterTrie.insert
    rw [hclean]
    cases t with
    | mk cs b c0 => exact ⟨rfl, rfl⟩
  · intro t p cat h
    unfold FilterTrie.insert
    cases hq : cleanChars p.data with
    | nil =>
        cases t with
        | mk cs b c0 => rfl
    | cons c rest =>
        cases t with
        | mk cs b c0 =>
            rw [insertChars_cons]
            exact h
  · intro t url hp hne
    have hld : lowerData url ≠ [] := by
      unfold lowerData
      simpa using hne
    cases hL : lowerData url with
    | nil => exact absurd hL hld
    | cons d rest =>
        unfold FilterTrie.matches
        rw [hL, matchesAux_cons, searchFrom_cons, if_pos hp]
  · intro t
    rfl

/-- Witness for C9: the surviving lines made of anchors and a wildcard clean
to the empty string; inserting one into the empty trie makes every nonempty
url match and leaves the empty url unmatched. -/
theorem C9_witness :
    lineSurvives "||^" = true ∧
    cleanChars (processedFilter "||^").data = [] ∧
    lineSurvives "*" = true ∧
    cleanChars (processedFilter "*").data = [] ∧
    (FilterTrie.insert emptyNode (processedFilter "||^") "Ad").isPat = true ∧
    (FilterTrie.insert emptyNode (processedFilter "||^") "Ad").cat = some "Ad" ∧
    FilterTrie.matches (FilterTrie.insert emptyNode (processedFilter "||^") "Ad")
      "https://x" = some ⟨true, some "Ad"⟩ ∧
    FilterTrie.matches (FilterTrie.insert emptyNode (processedFilter "||^") "Ad") "" =
      none := by
  have h1 := C9_empty_pattern.1 "||^" emptyNode "Ad" (by decide) (by decide)
  have h3 := C9_empty_pattern.2.2.1
    (FilterTrie.insert emptyNode (processedFilter "||^") "Ad") "https://x" h1.1 (by decide)
  have h4 := C9_empty_pattern.2.2.2
    (FilterTrie.insert emptyNode (processedFilter "||^") "Ad")
  refine ⟨by decide, by decide, by decide, by decide, h1.1, h1.2, ?_, h4⟩
  rw [h3, h1.2]
